import Mathlib

/-!
Verification development for the absynthe log-synthesis library.

The definitions below are shallow embeddings of the Python source under
absynthe/: nodes of a control-flow graph (absynthe/cfg/node.py), the
graph traversals (absynthe/cfg/graph.py), the logger nodes
(absynthe/cfg/logger_node.py), the graph builders
(absynthe/graph_builder.py) and the interleaving behavior
(absynthe/behavior.py).  Python node objects are keyed by their string
IDs (the library documents that IDs must be unique); the sentinel
successor None of the Python code is modelled by Option.none; machine
floats of the simulated clock and of the binomial parameters are
modelled by exact rationals; Python exceptions are modelled by Except.
-/

namespace Absynthe

/-- Python exceptions that the modelled code can raise. -/
inductive PyErr where
  | keyError : PyErr
  | attributeError : PyErr
deriving DecidableEq, Repr

/-- Node identifiers.  The Graph class documents that node IDs must be
unique across the reachable set, so a node object is represented by its
ID. -/
abbrev NodeId := String

/-- One entry of a successor list: either a real successor node or the
Python None sentinel that marks possible leaf-ness. -/
abbrev Succ := Option NodeId

/-- Model of UniformNode.addSuccessor (absynthe/cfg/node.py).  If the
argument is the None sentinel and a None entry is already present the
call returns without appending; otherwise the argument is appended. -/
def uniformAddSuccessor (succs : List Succ) (s : Succ) : List Succ :=
  match s with
  | none => if none ∈ succs then succs else succs ++ [none]
  | some x => succs ++ [some x]

/-- Model of BinomialNode.addSuccessor (absynthe/cfg/node.py).  The
Python body runs self.successors.index(None) inside try/except when the
argument is None, but neither the try branch nor the except branch
returns early, so control always falls through to the append: the
membership check has no effect on the resulting list. -/
def binomialAddSuccessor (succs : List Succ) (s : Succ) : List Succ :=
  succs ++ [s]

/-- Model of BinomialNode.init (absynthe/cfg/node.py).  The argument is
the parsed float value of kwargs[P_VALUE] when that key is present.  The
constructor raises KeyError when the key is missing and otherwise stores
the value; no range check on p is performed. -/
def binomialNodeInit (pValue : Option ℚ) : Except PyErr ℚ :=
  match pValue with
  | none => Except.error PyErr.keyError
  | some p => Except.ok p

/-- Binomial cumulative distribution function evaluated at k for n
trials with success probability p, as used via scipy.stats.binom.cdf in
BinomialNode.getSuccessorAtRandom. -/
def binomCdf (k n : ℕ) (p : ℚ) : ℚ :=
  ∑ j ∈ Finset.range (k + 1), (n.choose j : ℚ) * p ^ j * (1 - p) ^ (n - j)

/-- Model of the loop inside BinomialNode.getSuccessorAtRandom: iterate
over the given index list and return the successor at the first index k
with u ≤ cdf(k, numSuccessors - 1, p); falling off the loop returns the
implicit Python None. -/
def binomialScanLoop (succs : List Succ) (p u : ℚ) : List ℕ → Succ
  | [] => none
  | k :: rest =>
    if u ≤ binomCdf k (succs.length - 1) p then succs.getD k none
    else binomialScanLoop succs p u rest

/-- Model of BinomialNode.getSuccessorAtRandom (absynthe/cfg/node.py).
With zero successors the method returns None; otherwise it draws u
uniformly in [0,1) (passed here as an explicit argument) and scans the
indices 0..n-1. -/
def binomialGetSuccessorAtRandom (succs : List Succ) (p u : ℚ) : Succ :=
  if succs.length = 0 then none
  else binomialScanLoop succs p u (List.range succs.length)

/-- Model of the Python str.join method: concatenate the strings of the
list with the separator between consecutive elements. -/
def pyJoin (sep : String) : List String → String
  | [] => ""
  | [x] => x
  | x :: y :: rest => x ++ sep ++ pyJoin sep (y :: rest)

/-- Model of SimpleLoggerNode.createMesg (absynthe/cfg/logger_node.py)
with the fixed message chosen by the caller: the result is the join of
[timeStamp, " ", fixedMesg], extended by " [WITH_PARAMS] " and the
parameter strings (concatenated by the empty-separator join) exactly
when params is not None and the node does not ignore parameters. -/
def createMesg (fixedMesg : String) (ignoreParams : Bool) (timeStamp : String)
    (params : Option (List String)) : String :=
  let base := timeStamp ++ " " ++ fixedMesg
  match params with
  | none => base
  | some ps => if ignoreParams then base else base ++ " [WITH_PARAMS] " ++ pyJoin "" ps

/-- Model of the session tag built in MonospaceInterleaving.synthesize
(absynthe/behavior.py): the underscore-join of "SESSION", the run index
and the graph index when session tagging is enabled, and the empty
string otherwise. -/
def sessionTag (withSessions : Bool) (runIdx graphIdx : ℕ) : String :=
  if withSessions then pyJoin "_" ["SESSION", toString runIdx, toString graphIdx] else ""

/-- Model of the log prefix built in MonospaceInterleaving.synthesize:
the space-join of the rendered timestamp, the session tag and the graph
ID. -/
def logPrefixOf (withSessions : Bool) (runIdx graphIdx : ℕ)
    (timeStamp graphID : String) : String :=
  pyJoin " " [timeStamp, sessionTag withSessions runIdx graphIdx, graphID]

/-- Model of one log line emitted by MonospaceInterleaving.synthesize:
the node's logInfo is called with the log prefix as the timestamp
argument and with params = None. -/
def synthLine (withSessions : Bool) (runIdx graphIdx : ℕ)
    (timeStamp graphID fixedMesg : String) (ignoreParams : Bool) : String :=
  createMesg fixedMesg ignoreParams
    (logPrefixOf withSessions runIdx graphIdx timeStamp graphID) none

/-- Model of DCGBuilder.init handling of the REVERSE_EDGES keyword
(absynthe/graph_builder.py): the stored flag is bool(kwargs[key]) when
the key is present, which for a string value is Python truthiness, i.e.
true exactly for non-empty strings; a missing key leaves the flag
false. -/
def dcgReverseEdges (v : Option String) : Bool :=
  match v with
  | none => false
  | some s => s != ""

/-- Model of the gate in DCGBuilder.generateNewGraph: reverse edges are
constructed only when the graph has at least 3 levels and the
REVERSE_EDGES flag is set. -/
def dcgAddsReverseEdges (v : Option String) (numLevels : ℕ) : Bool :=
  decide (3 ≤ numLevels) && dcgReverseEdges v

/-- Model of a Python dict lookup in a string-keyed kwargs mapping: the
value of the first binding of the key, when present. -/
def lookupKw (kwargs : List (String × String)) (k : String) : Option String :=
  (kwargs.find? (fun e => e.1 == k)).map (fun e => e.2)

/-- Model of TreeBuilder.init (absynthe/graph_builder.py), restricted to
its keyword handling: the constructor reads the five keys NUM_ROOTS,
NUM_LEAVES, NUM_INNER_NODES, BRANCHING_DEGREE and SUPPORTED_NODE_TYPES
in that order and re-raises the KeyError when any of them is missing;
no other key influences whether construction succeeds. -/
def treeBuilderInit (kwargs : List (String × String)) : Except PyErr Unit :=
  match lookupKw kwargs "NUM_ROOTS" with
  | none => Except.error PyErr.keyError
  | some _ =>
    match lookupKw kwargs "NUM_LEAVES" with
    | none => Except.error PyErr.keyError
    | some _ =>
      match lookupKw kwargs "NUM_INNER_NODES" with
      | none => Except.error PyErr.keyError
      | some _ =>
        match lookupKw kwargs "BRANCHING_DEGREE" with
        | none => Except.error PyErr.keyError
        | some _ =>
          match lookupKw kwargs "SUPPORTED_NODE_TYPES" with
          | none => Except.error PyErr.keyError
          | some _ => Except.ok ()

/-- Model of the inner loop of SimpleLoggerNode.createLoglineSignature:
for block index i the Python code appends mesgInfixes[j mod 2] followed
by "::" for j in range(i+1), alternating between the logger node's ID
and the core node's ID. -/
def signatureBlock (nodeId coreId : String) (i : ℕ) : List String :=
  ((List.range (i + 1)).map (fun j => [if j % 2 = 0 then nodeId else coreId, "::"])).flatten

/-- Model of SimpleLoggerNode.createLoglineSignature
(absynthe/cfg/logger_node.py).  The random message length drawn by
randint is passed explicitly.  Each block appends a space, the optional
infix derived from a non-empty message prefix, and the alternating
ID/"::" sequence with the final "::" popped. -/
def createLoglineSignature (nodeId coreId mesgPfx : String) (mesgLen : ℕ) : String :=
  let mesgInfix : Option String :=
    if mesgPfx == "" then none else some (mesgPfx ++ "-")
  let pieces : List String :=
    [mesgPfx] ++
      ((List.range mesgLen).map (fun i =>
        [" "] ++ (match mesgInfix with | some m => [m] | none => []) ++
          (signatureBlock nodeId coreId i).dropLast)).flatten
  pyJoin "" pieces

/-- State of a SimpleLoggerNode after construction: the two fixed
signatures and the ignore-params flag.  The Python object has no other
field read by logInfo, logError or createMesg. -/
structure SimpleLoggerNode where
  fixedInfoMesg : String
  fixedErrMesg : String
  ignoreParams : Bool
deriving DecidableEq, Repr

/-- Model of SimpleLoggerNode construction (absynthe/cfg/logger_node.py):
the PREFIX keyword (defaulted to the empty string when missing or
falsy), the IGNORE_PARAMS keyword (true exactly when its lowercase form
is "true"), and the two signature lengths drawn by randint inside the
two createLoglineSignature calls, passed explicitly. -/
def mkSimpleLoggerNode (nodeId : String) (prefixKw ignoreKw : Option String)
    (lenInfo lenErr : ℕ) : SimpleLoggerNode :=
  let pfx := match prefixKw with | none => "" | some m => m
  let coreId := nodeId ++ "_Core"
  { fixedInfoMesg := createLoglineSignature nodeId coreId pfx lenInfo
    fixedErrMesg := createLoglineSignature nodeId coreId (pfx ++ " ERROR") lenErr
    ignoreParams := match ignoreKw with | none => false | some s => s.toLower == "true" }

/-- One call to a SimpleLoggerNode log method, with the arguments of the
call. -/
inductive LogCall where
  | info (timeStamp : String) (params : Option (List String)) : LogCall
  | err (timeStamp : String) (params : Option (List String)) : LogCall
deriving DecidableEq, Repr

/-- Model of a single SimpleLoggerNode.logInfo or logError call: the
emitted string together with the node state after the call.  The Python
methods assign no field of self, so the state is returned unchanged by
construction. -/
def logStep (n : SimpleLoggerNode) (c : LogCall) : String × SimpleLoggerNode :=
  match c with
  | LogCall.info ts ps => (createMesg n.fixedInfoMesg n.ignoreParams ts ps, n)
  | LogCall.err ts ps => (createMesg n.fixedErrMesg n.ignoreParams ts ps, n)

/-- Run a sequence of log calls on a SimpleLoggerNode, threading the
node state through the calls and collecting the emitted strings. -/
def runCalls (n : SimpleLoggerNode) : List LogCall → List String × SimpleLoggerNode
  | [] => ([], n)
  | c :: rest =>
    let out := logStep n c
    let next := runCalls out.2 rest
    (out.1 :: next.1, next.2)

/-- Timestamps of a single run of MonospaceInterleaving.synthesize that
emits m lines, starting from simulated clock c: the clock advances by
the fixed delta 1/20 after each emitted line. -/
def runTimestamps (c : ℚ) (m : ℕ) : List ℚ :=
  (List.range m).map (fun (j : ℕ) => c + (j : ℚ) * (1 / 20))

/-- Timestamp lists of the successive runs of
MonospaceInterleaving.synthesize, one inner list per run, where ms
gives the number of lines each run emits.  Each run first advances the
clock by the inter-run delay 5/2 and then emits its lines. -/
def runLists (clock : ℚ) : List ℕ → List (List ℚ)
  | [] => []
  | m :: rest =>
    runTimestamps (clock + 5 / 2) m :: runLists (clock + 5 / 2 + m * (1 / 20)) rest

/-- Timestamps of MonospaceInterleaving.synthesize: the wall clock is
initialised to -5/2 before the first run. -/
def synthesizeTimestamps (ms : List ℕ) : List (List ℚ) :=
  runLists (-(5 / 2)) ms

/-- The object graph of a Python Graph, keyed by node IDs: each entry
maps a node's ID to the node's successor list. -/
abbrev Env := List (NodeId × List Succ)

/-- Successor list of the node with the given ID.  An ID that is not
bound in the environment has no successors; the environments built from
actual object graphs bind every node. -/
def succsOf (env : Env) (id : NodeId) : List Succ :=
  match env.find? (fun e => e.1 == id) with
  | none => []
  | some e => e.2

/-- Model of Graph.bfsAndCount (absynthe/cfg/graph.py), with the Python
call stack turned into the explicit work list pending, processed
depth-first in the same order as the recursion.  Popping a None
successor models the AttributeError raised by None.getID(); popping an
already visited ID contributes nothing; otherwise the ID is marked
visited, counted, and its successors are expanded before the rest of
the work list. -/
def bfsAndCount (env : Env) (vis : List NodeId) (pending : List Succ) :
    Except PyErr (ℕ × List NodeId) :=
  match pending with
  | [] => Except.ok (0, vis)
  | none :: _ => Except.error PyErr.attributeError
  | some id :: rest =>
    if id ∈ vis then bfsAndCount env vis rest
    else
      match bfsAndCount env (id :: vis) (succsOf env id ++ rest) with
      | Except.error e => Except.error e
      | Except.ok (c, v) => Except.ok (c + 1, v)
termination_by ((((env.map Prod.fst).toFinset \ vis.toFinset).card, pending.length) : ℕ × ℕ)
decreasing_by
  · exact Prod.Lex.right _ (by simp)
  · rename_i hmem
    rcases hf : env.find? (fun e => e.1 == id) with _ | e
    · have hnil : succsOf env id = [] := by simp [succsOf, hf]
      have hsub : (env.map Prod.fst).toFinset \ (id :: vis).toFinset ⊆
          (env.map Prod.fst).toFinset \ vis.toFinset := by
        apply Finset.sdiff_subset_sdiff (le_refl _)
        intro x hx
        simp only [List.toFinset_cons, Finset.mem_insert]
        exact Or.inr hx
      rcases lt_or_eq_of_le (Finset.card_le_card hsub) with hlt | heq
      · exact Prod.Lex.left _ _ hlt
      · rw [heq]
        exact Prod.Lex.right _ (by simp [hnil])
    · have he : e ∈ env := List.mem_of_find?_eq_some hf
      have hid : e.1 = id := by
        have := List.find?_some hf
        simpa using this
      have hkey : id ∈ (env.map Prod.fst).toFinset := by
        rw [List.mem_toFinset]
        exact List.mem_map.mpr ⟨e, he, hid⟩
      apply Prod.Lex.left
      apply Finset.card_lt_card
      have hsub : (env.map Prod.fst).toFinset \ (id :: vis).toFinset ⊆
          (env.map Prod.fst).toFinset \ vis.toFinset := by
        apply Finset.sdiff_subset_sdiff (le_refl _)
        intro x hx
        simp only [List.toFinset_cons, Finset.mem_insert]
        exact Or.inr hx
      rw [Finset.ssubset_iff_of_subset hsub]
      refine ⟨id, ?_, ?_⟩
      · rw [Finset.mem_sdiff]
        refine ⟨hkey, ?_⟩
        rw [List.mem_toFinset]
        exact hmem
      · rw [Finset.mem_sdiff]
        rintro ⟨-, hno⟩
        simp at hno

/-- Model of Graph.bfsAndAdd (absynthe/cfg/graph.py), with the Python
call stack turned into an explicit work list of tasks.  A task carries
the ID of the node whose successor loop produced it (None for the
initial root calls) together with the successor entry itself.  Popping
a task first appends the transition recorded by the parent's loop body
(which calls succNode.getID() and therefore raises AttributeError on a
None successor), then expands the successor if it has not been visited
yet. -/
def bfsAndAdd (env : Env) (vis : List NodeId) (trans : List (NodeId × NodeId))
    (pending : List (Option NodeId × Succ)) :
    Except PyErr (List (NodeId × NodeId) × List NodeId) :=
  match pending with
  | [] => Except.ok (trans, vis)
  | (_, none) :: _ => Except.error PyErr.attributeError
  | (par, some s) :: rest =>
    let trans2 := match par with
      | some pid => trans ++ [(pid, s)]
      | none => trans
    if s ∈ vis then bfsAndAdd env vis trans2 rest
    else bfsAndAdd env (s :: vis) trans2
      ((succsOf env s).map (fun t => (some s, t)) ++ rest)
termination_by ((((env.map Prod.fst).toFinset \ vis.toFinset).card, pending.length) : ℕ × ℕ)
decreasing_by
  · exact Prod.Lex.right _ (by simp)
  · rename_i hmem
    rcases hf : env.find? (fun e => e.1 == s) with _ | e
    · have hnil : succsOf env s = [] := by simp [succsOf, hf]
      have hsub : (env.map Prod.fst).toFinset \ (s :: vis).toFinset ⊆
          (env.map Prod.fst).toFinset \ vis.toFinset := by
        apply Finset.sdiff_subset_sdiff (le_refl _)
        intro x hx
        simp only [List.toFinset_cons, Finset.mem_insert]
        exact Or.inr hx
      rcases lt_or_eq_of_le (Finset.card_le_card hsub) with hlt | heq
      · exact Prod.Lex.left _ _ hlt
      · rw [heq]
        exact Prod.Lex.right _ (by simp [hnil])
    · have he : e ∈ env := List.mem_of_find?_eq_some hf
      have hid : e.1 = s := by
        have := List.find?_some hf
        simpa using this
      have hkey : s ∈ (env.map Prod.fst).toFinset := by
        rw [List.mem_toFinset]
        exact List.mem_map.mpr ⟨e, he, hid⟩
      apply Prod.Lex.left
      apply Finset.card_lt_card
      have hsub : (env.map Prod.fst).toFinset \ (s :: vis).toFinset ⊆
          (env.map Prod.fst).toFinset \ vis.toFinset := by
        apply Finset.sdiff_subset_sdiff (le_refl _)
        intro x hx
        simp only [List.toFinset_cons, Finset.mem_insert]
        exact Or.inr hx
      rw [Finset.ssubset_iff_of_subset hsub]
      refine ⟨s, ?_, ?_⟩
      · rw [Finset.mem_sdiff]
        refine ⟨hkey, ?_⟩
        rw [List.mem_toFinset]
        exact hmem
      · rw [Finset.mem_sdiff]
        rintro ⟨-, hno⟩
        simp at hno

/-- A Graph object (absynthe/cfg/graph.py): its ID, its root list (a
root slot can in principle hold None, which both traversals skip), and
the object graph of nodes reachable through successor lists. -/
structure Graph where
  gid : String
  roots : List Succ
  env : Env

/-- Model of Graph.size (absynthe/cfg/graph.py): reset the visited set,
then run bfsAndCount from every non-None root, accumulating the
count. -/
def Graph.size (g : Graph) : Except PyErr ℕ :=
  match bfsAndCount g.env [] (g.roots.filter (fun r => r.isSome)) with
  | Except.error e => Except.error e
  | Except.ok (c, _) => Except.ok c

/-- Model of Graph.dumpDotFile (absynthe/cfg/graph.py), returning the
text written to the file: reset the visited set, collect the transition
list from every non-None root, and render the DOT digraph block. -/
def Graph.dumpDotFile (g : Graph) : Except PyErr String :=
  match bfsAndAdd g.env [] []
      ((g.roots.filter (fun r => r.isSome)).map (fun r => (none, r))) with
  | Except.error e => Except.error e
  | Except.ok (tlist, _) =>
    Except.ok ("digraph \"" ++ g.gid ++ "\" \x7b\n" ++
      pyJoin "" (tlist.map (fun t => "\t\"" ++ t.1 ++ "\" -> \"" ++ t.2 ++ "\";\n")) ++
      "\x7d\n")

/-- Reachability along successor entries: ReachFrom env a b holds when b
can be reached from a by following non-None successor entries. -/
inductive ReachFrom (env : Env) : NodeId → NodeId → Prop where
  | refl (a : NodeId) : ReachFrom env a a
  | head (a b c : NodeId) : some b ∈ succsOf env a → ReachFrom env b c → ReachFrom env a c

/-- A node ID is reachable in a graph when some non-None root reaches
it. -/
def ReachableInGraph (g : Graph) (x : NodeId) : Prop :=
  ∃ r, some r ∈ g.roots ∧ ReachFrom g.env r x

/-- Claim C2 (code bug): the spec requires every node variant to ignore
a second sentinel successor, and UniformNode.addSuccessor does, but
BinomialNode.addSuccessor appends a second None because its membership
check is never acted upon: on a node whose successor list is [None],
adding None yields [None, None] instead of leaving the list
unchanged. -/
theorem binomialAddSuccessor_duplicates_sentinel :
    binomialAddSuccessor [none] none = [none, none] ∧
    uniformAddSuccessor [none] none = [none] ∧
    binomialAddSuccessor [none] none ≠ [none] := by
  refine ⟨rfl, ?_, by decide⟩
  simp [uniformAddSuccessor]

/-- Counterexample to claim C4: constructing a BinomialNode with p = 2,
which lies outside [0,1], succeeds — the constructor performs no range
check, so no distribution-parameter error is raised. -/
theorem binomialNodeInit_accepts_out_of_range_p :
    binomialNodeInit (some 2) = Except.ok 2 ∧ ¬ ((0 : ℚ) ≤ 2 ∧ (2 : ℚ) ≤ 1) := by
  exact ⟨rfl, by norm_num⟩

/-- Claim C4 (amended): BinomialNode construction succeeds for every
supplied probability value, with no validation against [0,1]; the only
construction failure is the KeyError raised when the P_VALUE key is
missing. -/
theorem binomialNodeInit_spec (p : ℚ) :
    binomialNodeInit (some p) = Except.ok p ∧
    binomialNodeInit none = Except.error PyErr.keyError :=
  ⟨rfl, rfl⟩

/-- Counterexample to claim C5: with session tagging disabled, the line
emitted for timestamp "T", graph ID "G" and fixed signature "F" is
"T  G F" — the graph ID is inserted before the fixed signature and the
empty session tag leaves a doubled separator — not the claimed
"T F". -/
theorem synthLine_inserts_graph_id :
    synthLine false 0 0 "T" "G" "F" false = "T  G F" ∧ "T  G F" ≠ "T F" := by
  exact ⟨rfl, by decide⟩

/-- Claim C5 (amended): a line emitted by
MonospaceInterleaving.synthesize has the form
timestamp, separator, session tag (empty when tagging is disabled,
leaving a doubled separator), separator, graph ID, separator, fixed
signature; the WITH_PARAMS suffix is governed by createMesg, which
appends it exactly when params is present and the node does not ignore
parameters (synthesize itself always passes params = None). -/
theorem synthLine_format (i g : ℕ) (ts gid fm : String) (ign : Bool) (ps : List String) :
    synthLine false i g ts gid fm ign = ts ++ "  " ++ gid ++ " " ++ fm ∧
    synthLine true i g ts gid fm ign =
      ts ++ " " ++ ("SESSION_" ++ toString i ++ "_" ++ toString g) ++ " " ++ gid ++ " " ++ fm ∧
    createMesg fm false ts (some ps) = ts ++ " " ++ fm ++ " [WITH_PARAMS] " ++ pyJoin "" ps ∧
    createMesg fm true ts (some ps) = ts ++ " " ++ fm ∧
    createMesg fm ign ts none = ts ++ " " ++ fm := by
  refine ⟨?_, ?_, rfl, rfl, rfl⟩
  · simp [synthLine, createMesg, logPrefixOf, sessionTag, pyJoin, String.append_assoc]
    congr 1
  · simp [synthLine, createMesg, logPrefixOf, sessionTag, pyJoin, String.append_assoc]

/-- Counterexample to claim C7: constructing a TreeBuilder with the
inner-node budget supplied only as the MIN_NUM_INNER_NODES and
MAX_NUM_INNER_NODES pair (and every other documented key present)
raises the missing-key KeyError instead of succeeding. -/
theorem treeBuilderInit_min_max_fails :
    treeBuilderInit [("NUM_ROOTS", "2"), ("NUM_LEAVES", "4"),
      ("MIN_NUM_INNER_NODES", "8"), ("MAX_NUM_INNER_NODES", "16"),
      ("BRANCHING_DEGREE", "2"), ("SUPPORTED_NODE_TYPES", "SimpleLoggerNode")] =
      Except.error PyErr.keyError := by
  rfl

/-- Claim C7 (amended): TreeBuilder construction succeeds exactly when
all five keys NUM_ROOTS, NUM_LEAVES, NUM_INNER_NODES, BRANCHING_DEGREE
and SUPPORTED_NODE_TYPES are present; a MIN/MAX range is not an
accepted alternative, and in particular a missing NUM_INNER_NODES key
always yields the missing-key KeyError. -/
theorem treeBuilderInit_requires_all_keys (kwargs : List (String × String)) :
    (treeBuilderInit kwargs = Except.ok () ↔
      ((lookupKw kwargs "NUM_ROOTS").isSome ∧ (lookupKw kwargs "NUM_LEAVES").isSome ∧
        (lookupKw kwargs "NUM_INNER_NODES").isSome ∧
        (lookupKw kwargs "BRANCHING_DEGREE").isSome ∧
        (lookupKw kwargs "SUPPORTED_NODE_TYPES").isSome)) ∧
    (lookupKw kwargs "NUM_INNER_NODES" = none →
      treeBuilderInit kwargs = Except.error PyErr.keyError) := by
  unfold treeBuilderInit
  rcases lookupKw kwargs "NUM_ROOTS" with _ | v1 <;>
    rcases h2 : lookupKw kwargs "NUM_LEAVES" with _ | v2 <;>
      rcases h3 : lookupKw kwargs "NUM_INNER_NODES" with _ | v3 <;>
        rcases h4 : lookupKw kwargs "BRANCHING_DEGREE" with _ | v4 <;>
          rcases h5 : lookupKw kwargs "SUPPORTED_NODE_TYPES" with _ | v5 <;>
            simp [h2, h3, h4, h5]

/-- Witness for the amended claim C7 at a concrete input: a kwargs
mapping without NUM_INNER_NODES is rejected with KeyError. -/
theorem treeBuilderInit_requires_all_keys_witness :
    treeBuilderInit [("NUM_ROOTS", "1")] = Except.error PyErr.keyError :=
  (treeBuilderInit_requires_all_keys [("NUM_ROOTS", "1")]).2 (by decide)

/-- Claim C10: the REVERSE_EDGES value is converted with Python
truthiness, so every non-empty string — including "false", "False" and
"0" — enables reverse edges, while a missing key or the empty string
disables them. -/
theorem reverseEdges_python_truthiness (s : String) (h : s ≠ "") :
    dcgReverseEdges (some s) = true ∧
    dcgReverseEdges none = false ∧
    dcgReverseEdges (some "") = false ∧
    dcgReverseEdges (some "false") = true ∧
    dcgReverseEdges (some "False") = true ∧
    dcgReverseEdges (some "0") = true := by
  refine ⟨?_, rfl, by decide, by decide, by decide, by decide⟩
  simp [dcgReverseEdges, bne_iff_ne, h]

/-- Witness for claim C10 at a concrete non-empty value. -/
theorem reverseEdges_python_truthiness_witness :
    "x" ≠ "" ∧ dcgReverseEdges (some "x") = true :=
  ⟨by decide, (reverseEdges_python_truthiness "x" (by decide)).1⟩

/-- A logInfo or logError call leaves the SimpleLoggerNode state
unchanged: the Python methods assign no field of self. -/
theorem logStep_state (n : SimpleLoggerNode) (c : LogCall) : (logStep n c).2 = n := by
  cases c <;> rfl

/-- Running any call sequence leaves the node state, in particular both
fixed signatures, unchanged. -/
theorem runCalls_state (calls : List LogCall) (n : SimpleLoggerNode) :
    (runCalls n calls).2 = n := by
  induction calls generalizing n with
  | nil => rfl
  | cons c rest ih =>
    simp only [runCalls, logStep_state]
    exact ih n

/-- The outputs of a call sequence are a pure function of the node's
construction-time state and of each call's own arguments. -/
theorem runCalls_outputs (calls : List LogCall) (n : SimpleLoggerNode) :
    (runCalls n calls).1 = calls.map (fun c => (logStep n c).1) := by
  induction calls generalizing n with
  | nil => rfl
  | cons c rest ih =>
    simp only [runCalls, List.map_cons, logStep_state]
    exact congrArg _ (ih n)

/-- Claim C8: SimpleLoggerNode log emission is deterministic after
construction.  Over any sequence of logInfo/logError calls, the node
state (hence the fixed signature embedded in every output) is exactly
the construction-time state, each output is a pure function of that
state and the call's own (kind, timestamp, params) arguments, and two
calls of the sequence with identical arguments produce identical
strings. -/
theorem simpleLoggerNode_deterministic (n : SimpleLoggerNode) (calls : List LogCall) :
    (runCalls n calls).2 = n ∧
    (runCalls n calls).1 = calls.map (fun c => (logStep n c).1) ∧
    (∀ i j, i < calls.length → j < calls.length →
      calls.getD i (LogCall.info "" none) = calls.getD j (LogCall.info "" none) →
      (runCalls n calls).1.getD i "" = (runCalls n calls).1.getD j "") := by
  refine ⟨runCalls_state calls n, runCalls_outputs calls n, ?_⟩
  intro i j hi hj heq
  rw [runCalls_outputs calls n]
  have h1 : calls[i]? = some (calls.getD i (LogCall.info "" none)) := by
    rw [List.getElem?_eq_getElem hi, List.getD_eq_getElem calls _ hi]
  have h2 : calls[j]? = some (calls.getD j (LogCall.info "" none)) := by
    rw [List.getElem?_eq_getElem hj, List.getD_eq_getElem calls _ hj]
  rw [List.getD_eq_getElem?_getD, List.getD_eq_getElem?_getD, List.getElem?_map,
    List.getElem?_map, h1, h2, heq]

/-- Witness for claim C8 at a concrete node and call sequence: two
identical logInfo calls yield identical strings. -/
theorem simpleLoggerNode_deterministic_witness :
    (runCalls (mkSimpleLoggerNode "N" none none 1 1)
        [LogCall.info "t" none, LogCall.info "t" none]).1.getD 0 "" =
    (runCalls (mkSimpleLoggerNode "N" none none 1 1)
        [LogCall.info "t" none, LogCall.info "t" none]).1.getD 1 "" :=
  (simpleLoggerNode_deterministic (mkSimpleLoggerNode "N" none none 1 1)
    [LogCall.info "t" none, LogCall.info "t" none]).2.2 0 1
    (by decide) (by decide) rfl

/-- The binomial CDF over all m outcomes is 1, by the binomial
theorem. -/
theorem binomCdf_self (m : ℕ) (p : ℚ) : binomCdf m m p = 1 := by
  unfold binomCdf
  have hsum : ∑ j ∈ Finset.range (m + 1), (m.choose j : ℚ) * p ^ j * (1 - p) ^ (m - j) =
      ∑ j ∈ Finset.range (m + 1), p ^ j * (1 - p) ^ (m - j) * (m.choose j : ℚ) := by
    refine Finset.sum_congr rfl ?_
    intro j _
    ring
  rw [hsum, ← add_pow]
  have h1 : p + (1 - p) = 1 := by ring
  rw [h1, one_pow]

/-- The scan of BinomialNode.getSuccessorAtRandom over a contiguous
index range returns the successor at the least index satisfying the CDF
test, provided that index lies in the range and no smaller index
satisfies it. -/
theorem binomialScanLoop_first_hit (succs : List Succ) (p u : ℚ) (k0 : ℕ)
    (hk : u ≤ binomCdf k0 (succs.length - 1) p)
    (hmin : ∀ j, j < k0 → ¬ u ≤ binomCdf j (succs.length - 1) p) :
    ∀ m a, a ≤ k0 → k0 < a + m →
      binomialScanLoop succs p u (List.range' a m) = succs.getD k0 none := by
  intro m
  induction m with
  | zero =>
    intro a ha hlt
    omega
  | succ m ih =>
    intro a ha hlt
    rw [List.range'_succ]
    simp only [binomialScanLoop]
    by_cases hQ : u ≤ binomCdf a (succs.length - 1) p
    · have heq : a = k0 := by
        rcases lt_or_eq_of_le ha with h | h
        · exact absurd hQ (hmin a h)
        · exact h
      rw [if_pos hQ, heq]
    · rw [if_neg hQ]
      apply ih
      · rcases lt_or_eq_of_le ha with h | h
        · omega
        · subst h
          exact absurd hk hQ
      · omega

/-- Claim C3: with zero successors getSuccessorAtRandom returns the
leaf sentinel; with n ≥ 1 successors and u drawn in [0,1) it returns
the successor at the first index k with u ≤ CDF(k; n-1, p), and the
scan never falls through, because CDF(n-1; n-1, p) = 1. -/
theorem binomial_selects_first_cdf_index (succs : List Succ) (p u : ℚ)
    (hp0 : 0 ≤ p) (hp1 : p ≤ 1) (hu0 : 0 ≤ u) (hu1 : u < 1) :
    binomialGetSuccessorAtRandom [] p u = none ∧
    (succs ≠ [] → ∃ k, k < succs.length ∧
      u ≤ binomCdf k (succs.length - 1) p ∧
      (∀ j, j < k → ¬ u ≤ binomCdf j (succs.length - 1) p) ∧
      binomialGetSuccessorAtRandom succs p u = succs.getD k none) := by
  refine ⟨rfl, ?_⟩
  intro hne
  have hlen : 0 < succs.length := List.length_pos.mpr hne
  have hQex : ∃ k, u ≤ binomCdf k (succs.length - 1) p :=
    ⟨succs.length - 1, by rw [binomCdf_self]; exact le_of_lt hu1⟩
  have hle : Nat.find hQex ≤ succs.length - 1 :=
    Nat.find_min' hQex (by rw [binomCdf_self]; exact le_of_lt hu1)
  refine ⟨Nat.find hQex, by omega, Nat.find_spec hQex,
    fun j hj => Nat.find_min hQex hj, ?_⟩
  unfold binomialGetSuccessorAtRandom
  rw [if_neg (by omega), List.range_eq_range']
  exact binomialScanLoop_first_hit succs p u (Nat.find hQex) (Nat.find_spec hQex)
    (fun j hj => Nat.find_min hQex hj) succs.length 0 (Nat.zero_le _) (by omega)

/-- Witness for claim C3: two successors, p = 1/2, u = 1/4; the call
selects index 0 since CDF(0; 1, 1/2) = 1/2 ≥ 1/4. -/
theorem binomial_selects_first_cdf_index_witness :
    [some "x", some "y"] ≠ ([] : List Succ) ∧
    ∃ k, k < 2 ∧ (1 / 4 : ℚ) ≤ binomCdf k 1 (1 / 2) ∧
      (∀ j, j < k → ¬ (1 / 4 : ℚ) ≤ binomCdf j 1 (1 / 2)) ∧
      binomialGetSuccessorAtRandom [some "x", some "y"] (1 / 2) (1 / 4) =
        [some "x", some "y"].getD k none :=
  ⟨by decide,
    (binomial_selects_first_cdf_index [some "x", some "y"] (1 / 2) (1 / 4)
      (by norm_num) (by norm_num) (by norm_num) (by norm_num)).2 (by decide)⟩

/-- Every timestamp of a run starting at clock c is at least c. -/
theorem runTimestamps_lb {c : ℚ} {m : ℕ} {x : ℚ} (hx : x ∈ runTimestamps c m) : c ≤ x := by
  simp only [runTimestamps, List.mem_map, List.mem_range] at hx
  obtain ⟨j, -, rfl⟩ := hx
  have : (0 : ℚ) ≤ j * (1 / 20) := by positivity
  linarith

/-- Every timestamp of a run of m lines starting at clock c is below
c + m/20. -/
theorem runTimestamps_ub {c : ℚ} {m : ℕ} {x : ℚ} (hx : x ∈ runTimestamps c m) :
    x < c + m * (1 / 20) := by
  simp only [runTimestamps, List.mem_map, List.mem_range] at hx
  obtain ⟨j, hj, rfl⟩ := hx
  have hcast : (j : ℚ) < m := by exact_mod_cast hj
  have : (j : ℚ) * (1 / 20) < m * (1 / 20) := by linarith
  linarith

/-- Every timestamp of the runs scheduled from clock c is at least
c + 5/2: each run first advances the clock by the inter-run delay. -/
theorem runLists_flatten_lb :
    ∀ (ms : List ℕ) (c : ℚ) (x : ℚ), x ∈ (runLists c ms).flatten → c + 5 / 2 ≤ x := by
  intro ms
  induction ms with
  | nil =>
    intro c x hx
    simp [runLists] at hx
  | cons m rest ih =>
    intro c x hx
    rw [runLists] at hx
    rw [List.flatten_cons, List.mem_append] at hx
    rcases hx with hx | hx
    · exact runTimestamps_lb hx
    · have h := ih (c + 5 / 2 + m * (1 / 20)) x hx
      have : (0 : ℚ) ≤ m * (1 / 20) := by positivity
      linarith

/-- Any timestamp of an earlier run precedes any timestamp of a later
run by more than the inter-run delay 5/2. -/
theorem runLists_pairwise_gap :
    ∀ (ms : List ℕ) (c : ℚ),
      (runLists c ms).Pairwise (fun r s => ∀ x ∈ r, ∀ y ∈ s, x + 5 / 2 < y) := by
  intro ms
  induction ms with
  | nil =>
    intro c
    simp [runLists]
  | cons m rest ih =>
    intro c
    rw [runLists]
    refine List.Pairwise.cons ?_ (ih _)
    intro s hs x hx y hy
    have hxu := runTimestamps_ub hx
    have hyl : c + 5 / 2 + m * (1 / 20) + 5 / 2 ≤ y :=
      runLists_flatten_lb rest _ y (List.mem_flatten.mpr ⟨s, hs, hy⟩)
    linarith

/-- The timestamps inside one run are strictly increasing. -/
theorem runTimestamps_pairwise_lt (c : ℚ) (m : ℕ) :
    (runTimestamps c m).Pairwise (· < ·) := by
  unfold runTimestamps
  refine List.Pairwise.map _ ?_ (List.pairwise_lt_range m)
  intro a b hab
  have : (a : ℚ) < b := by exact_mod_cast hab
  have : (a : ℚ) * (1 / 20) < b * (1 / 20) := by linarith
  linarith

/-- Consecutive timestamps inside one run differ by exactly the
per-step delta 1/20. -/
theorem runTimestamps_chain_step (c : ℚ) (m : ℕ) :
    (runTimestamps c m).Chain' (fun a b => b = a + 1 / 20) := by
  unfold runTimestamps
  rw [List.chain'_map]
  cases m with
  | zero => simp
  | succ n =>
    rw [List.chain'_range_succ]
    intro j hj
    push_cast
    ring

/-- Every member of runLists is the timestamp list of one run. -/
theorem runLists_mem_shape :
    ∀ (ms : List ℕ) (c : ℚ) (l : List ℚ), l ∈ runLists c ms →
      ∃ c2 m, l = runTimestamps c2 m := by
  intro ms
  induction ms with
  | nil =>
    intro c l hl
    simp [runLists] at hl
  | cons m rest ih =>
    intro c l hl
    rw [runLists, List.mem_cons] at hl
    rcases hl with rfl | hl
    · exact ⟨c + 5 / 2, m, rfl⟩
    · exact ih _ l hl

/-- Claim C6: over the whole sequence produced by synthesize the
simulated-clock timestamps are strictly increasing; within each run
consecutive timestamps differ by exactly the per-step delta 1/20
(= 0.05); and every timestamp of a later run exceeds every timestamp
of any earlier run by more than the inter-run delay 5/2 (= 2.5), so
runs never overlap and the clock never decreases. -/
theorem synthesize_timestamps_monotone (ms : List ℕ) :
    ((synthesizeTimestamps ms).flatten).Pairwise (· < ·) ∧
    (∀ l ∈ synthesizeTimestamps ms, l.Chain' (fun a b => b = a + 1 / 20)) ∧
    (synthesizeTimestamps ms).Pairwise (fun r s => ∀ x ∈ r, ∀ y ∈ s, x + 5 / 2 < y) := by
  refine ⟨?_, ?_, runLists_pairwise_gap ms _⟩
  · rw [List.pairwise_flatten]
    refine ⟨?_, ?_⟩
    · intro l hl
      obtain ⟨c2, m, rfl⟩ := runLists_mem_shape ms _ l hl
      exact runTimestamps_pairwise_lt c2 m
    · refine List.Pairwise.imp ?_ (runLists_pairwise_gap ms _)
      intro r s h x hx y hy
      have := h x hx y hy
      linarith
  · intro l hl
    obtain ⟨c2, m, rfl⟩ := runLists_mem_shape ms _ l hl
    exact runTimestamps_chain_step c2 m

/-- Witness for claim C6 at a concrete run profile: with two runs of
one and two lines, the first run's timestamp list satisfies the exact
per-step chain property. -/
theorem synthesize_timestamps_monotone_witness :
    runTimestamps 0 1 ∈ synthesizeTimestamps [1, 2] ∧
    (runTimestamps 0 1).Chain' (fun a b => b = a + 1 / 20) := by
  have hmem : runTimestamps 0 1 ∈ synthesizeTimestamps [1, 2] := by
    have h0 : -(5 / 2 : ℚ) + 5 / 2 = 0 := by norm_num
    simp [synthesizeTimestamps, runLists, h0]
  exact ⟨hmem, (synthesize_timestamps_monotone [1, 2]).2.1 (runTimestamps 0 1) hmem⟩

/-- The visited list only grows during the counting traversal. -/
theorem bfsAndCount_subset (env : Env) :
    ∀ (vis : List NodeId) (pending : List Succ), ∀ (c : ℕ) (v : List NodeId),
      bfsAndCount env vis pending = Except.ok (c, v) → vis ⊆ v := by
  intro vis pending
  induction vis, pending using bfsAndCount.induct env with
  | case1 vis =>
    intro c v h
    simp only [bfsAndCount] at h
    obtain ⟨-, rfl⟩ : 0 = c ∧ vis = v := by
      simpa using h
    exact fun x hx => hx
  | case2 vis tail =>
    intro c v h
    simp [bfsAndCount] at h
  | case3 vis id rest hmem ih =>
    intro c v h
    rw [bfsAndCount, if_pos hmem] at h
    exact ih c v h
  | case4 vis id rest hmem e herr ih =>
    intro c v h
    rw [bfsAndCount, if_neg hmem] at h
    rw [herr] at h
    simp at h
  | case5 vis id rest hmem c0 v0 hok ih =>
    intro c v h
    rw [bfsAndCount, if_neg hmem] at h
    rw [hok] at h
    obtain ⟨-, rfl⟩ : c0 + 1 = c ∧ v0 = v := by
      simpa using h
    intro x hx
    exact ih c0 v0 hok (List.mem_cons_of_mem id hx)

/-- The counting traversal returns the number of nodes newly added to
the visited list. -/
theorem bfsAndCount_length (env : Env) :
    ∀ (vis : List NodeId) (pending : List Succ), ∀ (c : ℕ) (v : List NodeId),
      bfsAndCount env vis pending = Except.ok (c, v) → v.length = c + vis.length := by
  intro vis pending
  induction vis, pending using bfsAndCount.induct env with
  | case1 vis =>
    intro c v h
    obtain ⟨rfl, rfl⟩ : 0 = c ∧ vis = v := by
      simp only [bfsAndCount] at h
      simpa using h
    simp
  | case2 vis tail =>
    intro c v h
    simp [bfsAndCount] at h
  | case3 vis id rest hmem ih =>
    intro c v h
    rw [bfsAndCount, if_pos hmem] at h
    exact ih c v h
  | case4 vis id rest hmem e herr ih =>
    intro c v h
    rw [bfsAndCount, if_neg hmem, herr] at h
    simp at h
  | case5 vis id rest hmem c0 v0 hok ih =>
    intro c v h
    rw [bfsAndCount, if_neg hmem, hok] at h
    obtain ⟨rfl, rfl⟩ : c0 + 1 = c ∧ v0 = v := by
      simpa using h
    have := ih c0 v0 hok
    simp only [List.length_cons] at this
    omega

/-- The counting traversal preserves distinctness of the visited
list. -/
theorem bfsAndCount_nodup (env : Env) :
    ∀ (vis : List NodeId) (pending : List Succ), ∀ (c : ℕ) (v : List NodeId),
      bfsAndCount env vis pending = Except.ok (c, v) → vis.Nodup → v.Nodup := by
  intro vis pending
  induction vis, pending using bfsAndCount.induct env with
  | case1 vis =>
    intro c v h hnd
    obtain ⟨-, rfl⟩ : 0 = c ∧ vis = v := by
      simp only [bfsAndCount] at h
      simpa using h
    exact hnd
  | case2 vis tail =>
    intro c v h hnd
    simp [bfsAndCount] at h
  | case3 vis id rest hmem ih =>
    intro c v h hnd
    rw [bfsAndCount, if_pos hmem] at h
    exact ih c v h hnd
  | case4 vis id rest hmem e herr ih =>
    intro c v h hnd
    rw [bfsAndCount, if_neg hmem, herr] at h
    simp at h
  | case5 vis id rest hmem c0 v0 hok ih =>
    intro c v h hnd
    rw [bfsAndCount, if_neg hmem, hok] at h
    obtain ⟨-, rfl⟩ : c0 + 1 = c ∧ v0 = v := by
      simpa using h
    exact ih c0 v0 hok (List.nodup_cons.mpr ⟨hmem, hnd⟩)

/-- A successful counting traversal never had a None sentinel in its
work list. -/
theorem bfsAndCount_no_sentinel (env : Env) :
    ∀ (vis : List NodeId) (pending : List Succ), ∀ (c : ℕ) (v : List NodeId),
      bfsAndCount env vis pending = Except.ok (c, v) → none ∉ pending := by
  intro vis pending
  induction vis, pending using bfsAndCount.induct env with
  | case1 vis =>
    intro c v h
    simp
  | case2 vis tail =>
    intro c v h
    simp [bfsAndCount] at h
  | case3 vis id rest hmem ih =>
    intro c v h
    rw [bfsAndCount, if_pos hmem] at h
    have := ih c v h
    simp [this]
  | case4 vis id rest hmem e herr ih =>
    intro c v h
    rw [bfsAndCount, if_neg hmem, herr] at h
    simp at h
  | case5 vis id rest hmem c0 v0 hok ih =>
    intro c v h
    have := ih c0 v0 hok
    rw [List.mem_append] at this
    simp only [List.mem_cons]
    push_neg
    exact ⟨by simp, fun hr => this (Or.inr hr)⟩

/-- Soundness of the counting traversal: every visited ID was either
already visited or is reachable from some entry of the work list. -/
theorem bfsAndCount_sound (env : Env) :
    ∀ (vis : List NodeId) (pending : List Succ), ∀ (c : ℕ) (v : List NodeId),
      bfsAndCount env vis pending = Except.ok (c, v) →
      ∀ x ∈ v, x ∈ vis ∨ ∃ r, some r ∈ pending ∧ ReachFrom env r x := by
  intro vis pending
  induction vis, pending using bfsAndCount.induct env with
  | case1 vis =>
    intro c v h x hx
    obtain ⟨-, rfl⟩ : 0 = c ∧ vis = v := by
      simp only [bfsAndCount] at h
      simpa using h
    exact Or.inl hx
  | case2 vis tail =>
    intro c v h
    simp [bfsAndCount] at h
  | case3 vis id rest hmem ih =>
    intro c v h x hx
    rw [bfsAndCount, if_pos hmem] at h
    rcases ih c v h x hx with hl | ⟨r, hr, hrx⟩
    · exact Or.inl hl
    · exact Or.inr ⟨r, List.mem_cons_of_mem _ hr, hrx⟩
  | case4 vis id rest hmem e herr ih =>
    intro c v h
    rw [bfsAndCount, if_neg hmem, herr] at h
    simp at h
  | case5 vis id rest hmem c0 v0 hok ih =>
    intro c v h x hx
    rw [bfsAndCount, if_neg hmem, hok] at h
    obtain ⟨-, rfl⟩ : c0 + 1 = c ∧ v0 = v := by
      simpa using h
    rcases ih c0 v0 hok x hx with hl | ⟨r, hr, hrx⟩
    · rcases List.mem_cons.mp hl with rfl | hl
      · exact Or.inr ⟨x, List.mem_cons_self _ _, ReachFrom.refl x⟩
      · exact Or.inl hl
    · rcases List.mem_append.mp hr with hs | hs
      · exact Or.inr ⟨id, List.mem_cons_self _ _, ReachFrom.head id r x hs hrx⟩
      · exact Or.inr ⟨r, List.mem_cons_of_mem _ hs, hrx⟩

/-- Completeness of the counting traversal: after success, every work
list entry has been visited, and every newly visited node has a
sentinel-free successor list all of whose entries are visited. -/
theorem bfsAndCount_complete (env : Env) :
    ∀ (vis : List NodeId) (pending : List Succ), ∀ (c : ℕ) (v : List NodeId),
      bfsAndCount env vis pending = Except.ok (c, v) →
      (∀ y, some y ∈ pending → y ∈ v) ∧
      (∀ x ∈ v, x ∈ vis ∨
        (none ∉ succsOf env x ∧ ∀ y, some y ∈ succsOf env x → y ∈ v)) := by
  intro vis pending
  induction vis, pending using bfsAndCount.induct env with
  | case1 vis =>
    intro c v h
    obtain ⟨-, rfl⟩ : 0 = c ∧ vis = v := by
      simp only [bfsAndCount] at h
      simpa using h
    exact ⟨by simp, fun x hx => Or.inl hx⟩
  | case2 vis tail =>
    intro c v h
    simp [bfsAndCount] at h
  | case3 vis id rest hmem ih =>
    intro c v h
    rw [bfsAndCount, if_pos hmem] at h
    obtain ⟨ih1, ih2⟩ := ih c v h
    refine ⟨?_, ih2⟩
    intro y hy
    rcases List.mem_cons.mp hy with hy | hy
    · obtain rfl : y = id := by simpa using hy
      exact bfsAndCount_subset env vis rest c v h hmem
    · exact ih1 y hy
  | case4 vis id rest hmem e herr ih =>
    intro c v h
    rw [bfsAndCount, if_neg hmem, herr] at h
    simp at h
  | case5 vis id rest hmem c0 v0 hok ih =>
    intro c v h
    rw [bfsAndCount, if_neg hmem, hok] at h
    obtain ⟨-, rfl⟩ : c0 + 1 = c ∧ v0 = v := by
      simpa using h
    obtain ⟨ih1, ih2⟩ := ih c0 v0 hok
    have hidv : id ∈ v0 :=
      bfsAndCount_subset env (id :: vis) _ c0 v0 hok (List.mem_cons_self _ _)
    have hnos := bfsAndCount_no_sentinel env (id :: vis) _ c0 v0 hok
    refine ⟨?_, ?_⟩
    · intro y hy
      rcases List.mem_cons.mp hy with hy | hy
      · obtain rfl : y = id := by simpa using hy
        exact hidv
      · exact ih1 y (List.mem_append.mpr (Or.inr hy))
    · intro x hx
      rcases ih2 x hx with hl | hc
      · rcases List.mem_cons.mp hl with rfl | hl
        · refine Or.inr ⟨?_, ?_⟩
          · intro hbad
            exact hnos (List.mem_append.mpr (Or.inl hbad))
          · intro y hy
            exact ih1 y (List.mem_append.mpr (Or.inl hy))
        · exact Or.inl hl
      · exact Or.inr hc

/-- The counting traversal can only fail with AttributeError. -/
theorem bfsAndCount_error_form (env : Env) :
    ∀ (vis : List NodeId) (pending : List Succ), ∀ (e : PyErr),
      bfsAndCount env vis pending = Except.error e → e = PyErr.attributeError := by
  intro vis pending
  induction vis, pending using bfsAndCount.induct env with
  | case1 vis =>
    intro e h
    simp [bfsAndCount] at h
  | case2 vis tail =>
    intro e h
    simp only [bfsAndCount] at h
    simpa using h.symm
  | case3 vis id rest hmem ih =>
    intro e h
    rw [bfsAndCount, if_pos hmem] at h
    exact ih e h
  | case4 vis id rest hmem e0 herr ih =>
    intro e h
    rw [bfsAndCount, if_neg hmem, herr] at h
    obtain rfl : e0 = e := by simpa using h
    exact ih e0 herr
  | case5 vis id rest hmem c0 v0 hok ih =>
    intro e h
    rw [bfsAndCount, if_neg hmem, hok] at h
    simp at h

/-- Totality of the counting traversal on sentinel-free inputs: when no
work list entry is the sentinel and no node reachable from the work
list has a sentinel successor, the traversal succeeds. -/
theorem bfsAndCount_total (env : Env) :
    ∀ (vis : List NodeId) (pending : List Succ),
      none ∉ pending →
      (∀ y, some y ∈ pending → ∀ x, ReachFrom env y x → none ∉ succsOf env x) →
      ∃ c v, bfsAndCount env vis pending = Except.ok (c, v) := by
  intro vis pending
  induction vis, pending using bfsAndCount.induct env with
  | case1 vis =>
    intro _ _
    exact ⟨0, vis, by simp [bfsAndCount]⟩
  | case2 vis tail =>
    intro hno _
    exact absurd (List.mem_cons_self _ _) hno
  | case3 vis id rest hmem ih =>
    intro hno hsafe
    obtain ⟨c, v, hok⟩ := ih (fun hr => hno (List.mem_cons_of_mem _ hr))
      (fun y hy => hsafe y (List.mem_cons_of_mem _ hy))
    exact ⟨c, v, by rw [bfsAndCount, if_pos hmem]; exact hok⟩
  | case4 vis id rest hmem e herr ih =>
    intro hno hsafe
    have hsafeid : ∀ x, ReachFrom env id x → none ∉ succsOf env x :=
      hsafe id (List.mem_cons_self _ _)
    have hno2 : none ∉ succsOf env id ++ rest := by
      rw [List.mem_append]
      rintro (hbad | hbad)
      · exact hsafeid id (ReachFrom.refl id) hbad
      · exact hno (List.mem_cons_of_mem _ hbad)
    have hsafe2 : ∀ y, some y ∈ succsOf env id ++ rest →
        ∀ x, ReachFrom env y x → none ∉ succsOf env x := by
      intro y hy x hrx
      rcases List.mem_append.mp hy with hy | hy
      · exact hsafeid x (ReachFrom.head id y x hy hrx)
      · exact hsafe y (List.mem_cons_of_mem _ hy) x hrx
    obtain ⟨c, v, hok⟩ := ih hno2 hsafe2
    rw [hok] at herr
    simp at herr
  | case5 vis id rest hmem c0 v0 hok ih =>
    intro _ _
    exact ⟨c0 + 1, v0, by rw [bfsAndCount, if_neg hmem, hok]⟩

/-- The visited list only grows during the edge-collecting
traversal. -/
theorem bfsAndAdd_subset (env : Env) :
    ∀ (vis : List NodeId) (trans : List (NodeId × NodeId))
      (pending : List (Option NodeId × Succ)),
      ∀ tl v, bfsAndAdd env vis trans pending = Except.ok (tl, v) → vis ⊆ v := by
  intro vis trans pending
  induction vis, trans, pending using bfsAndAdd.induct env with
  | case1 vis trans =>
    intro tl v h
    obtain ⟨-, rfl⟩ : trans = tl ∧ vis = v := by
      rw [bfsAndAdd.eq_def] at h
      simpa using h
    exact fun x hx => hx
  | case2 vis trans fst tail =>
    intro tl v h
    rw [bfsAndAdd.eq_def] at h
    simp at h
  | case3 vis trans par s rest trans2 hmem ih =>
    intro tl v h
    rw [bfsAndAdd.eq_def] at h
    dsimp only at h
    rw [if_pos hmem] at h
    exact ih tl v h
  | case4 vis trans par s rest trans2 hmem ih =>
    intro tl v h
    rw [bfsAndAdd.eq_def] at h
    dsimp only at h
    rw [if_neg hmem] at h
    intro x hx
    exact ih tl v h (List.mem_cons_of_mem s hx)

/-- A successful edge-collecting traversal never had a None sentinel
successor in its task list. -/
theorem bfsAndAdd_no_sentinel (env : Env) :
    ∀ (vis : List NodeId) (trans : List (NodeId × NodeId))
      (pending : List (Option NodeId × Succ)),
      ∀ tl v, bfsAndAdd env vis trans pending = Except.ok (tl, v) →
        ∀ pr, (pr, (none : Succ)) ∉ pending := by
  intro vis trans pending
  induction vis, trans, pending using bfsAndAdd.induct env with
  | case1 vis trans =>
    intro tl v h pr
    simp
  | case2 vis trans fst tail =>
    intro tl v h
    rw [bfsAndAdd.eq_def] at h
    simp at h
  | case3 vis trans par s rest trans2 hmem ih =>
    intro tl v h pr
    rw [bfsAndAdd.eq_def] at h
    dsimp only at h
    rw [if_pos hmem] at h
    have := ih tl v h pr
    simp only [List.mem_cons]
    push_neg
    exact ⟨by simp, this⟩
  | case4 vis trans par s rest trans2 hmem ih =>
    intro tl v h pr
    rw [bfsAndAdd.eq_def] at h
    dsimp only at h
    rw [if_neg hmem] at h
    have := ih tl v h pr
    rw [List.mem_append] at this
    simp only [List.mem_cons]
    push_neg
    exact ⟨by simp, fun hr => this (Or.inr hr)⟩

/-- Completeness of the edge-collecting traversal: after success, the
successor of every task is visited, and every newly visited node has a
sentinel-free successor list all of whose entries are visited. -/
theorem bfsAndAdd_complete (env : Env) :
    ∀ (vis : List NodeId) (trans : List (NodeId × NodeId))
      (pending : List (Option NodeId × Succ)),
      ∀ tl v, bfsAndAdd env vis trans pending = Except.ok (tl, v) →
      (∀ s, (∃ pr, (pr, some s) ∈ pending) → s ∈ v) ∧
      (∀ x ∈ v, x ∈ vis ∨
        (none ∉ succsOf env x ∧ ∀ y, some y ∈ succsOf env x → y ∈ v)) := by
  intro vis trans pending
  induction vis, trans, pending using bfsAndAdd.induct env with
  | case1 vis trans =>
    intro tl v h
    obtain ⟨-, rfl⟩ : trans = tl ∧ vis = v := by
      rw [bfsAndAdd.eq_def] at h
      simpa using h
    exact ⟨fun s hs => by simp at hs, fun x hx => Or.inl hx⟩
  | case2 vis trans fst tail =>
    intro tl v h
    rw [bfsAndAdd.eq_def] at h
    simp at h
  | case3 vis trans par s rest trans2 hmem ih =>
    intro tl v h
    rw [bfsAndAdd.eq_def] at h
    dsimp only at h
    rw [if_pos hmem] at h
    obtain ⟨ih1, ih2⟩ := ih tl v h
    refine ⟨?_, ih2⟩
    rintro y ⟨pr, hy⟩
    rcases List.mem_cons.mp hy with hy | hy
    · obtain ⟨-, rfl⟩ : pr = par ∧ y = s := by simpa using hy
      exact bfsAndAdd_subset env vis trans2 rest tl v h hmem
    · exact ih1 y ⟨pr, hy⟩
  | case4 vis trans par s rest trans2 hmem ih =>
    intro tl v h
    rw [bfsAndAdd.eq_def] at h
    dsimp only at h
    rw [if_neg hmem] at h
    obtain ⟨ih1, ih2⟩ := ih tl v h
    have hsv : s ∈ v :=
      bfsAndAdd_subset env (s :: vis) trans2 _ tl v h (List.mem_cons_self _ _)
    have hnos := bfsAndAdd_no_sentinel env (s :: vis) trans2 _ tl v h
    refine ⟨?_, ?_⟩
    · rintro y ⟨pr, hy⟩
      rcases List.mem_cons.mp hy with hy | hy
      · obtain ⟨-, rfl⟩ : pr = par ∧ y = s := by simpa using hy
        exact hsv
      · exact ih1 y ⟨pr, List.mem_append.mpr (Or.inr hy)⟩
    · intro x hx
      rcases ih2 x hx with hl | hc
      · rcases List.mem_cons.mp hl with rfl | hl
        · refine Or.inr ⟨?_, ?_⟩
          · intro hbad
            exact hnos (some x)
              (List.mem_append.mpr (Or.inl (List.mem_map.mpr ⟨none, hbad, rfl⟩)))
          · intro y hy
            exact ih1 y ⟨some x,
              List.mem_append.mpr (Or.inl (List.mem_map.mpr ⟨some y, hy, rfl⟩))⟩
        · exact Or.inl hl
      · exact Or.inr hc

/-- The edge-collecting traversal can only fail with AttributeError. -/
theorem bfsAndAdd_error_form (env : Env) :
    ∀ (vis : List NodeId) (trans : List (NodeId × NodeId))
      (pending : List (Option NodeId × Succ)),
      ∀ e, bfsAndAdd env vis trans pending = Except.error e →
        e = PyErr.attributeError := by
  intro vis trans pending
  induction vis, trans, pending using bfsAndAdd.induct env with
  | case1 vis trans =>
    intro e h
    rw [bfsAndAdd.eq_def] at h
    simp at h
  | case2 vis trans fst tail =>
    intro e h
    rw [bfsAndAdd.eq_def] at h
    simpa using h.symm
  | case3 vis trans par s rest trans2 hmem ih =>
    intro e h
    rw [bfsAndAdd.eq_def] at h
    dsimp only at h
    rw [if_pos hmem] at h
    exact ih e h
  | case4 vis trans par s rest trans2 hmem ih =>
    intro e h
    rw [bfsAndAdd.eq_def] at h
    dsimp only at h
    rw [if_neg hmem] at h
    exact ih e h

/-- A visited list that is successor-closed and sentinel-free contains
every node reachable from any of its members. -/
theorem visited_closed_under_reach (env : Env) (v : List NodeId)
    (hcl : ∀ x ∈ v, none ∉ succsOf env x ∧ ∀ y, some y ∈ succsOf env x → y ∈ v) :
    ∀ a b, ReachFrom env a b → a ∈ v → b ∈ v := by
  intro a b hab
  induction hab with
  | refl a => exact id
  | head a b c hs hbc ih =>
    intro ha
    exact ih ((hcl a ha).2 b hs)

/-- Claim C1: on every graph none of whose reachable nodes has a
sentinel successor entry (the traversal raises otherwise, see the C9
theorem), size() returns the number of distinct reachable node IDs: it
is 0 when there are no roots, it terminates even on cyclic graphs (the
model function is total), and the returned count enumerates each
reachable ID exactly once. -/
theorem graph_size_counts_reachable (g : Graph)
    (hsafe : ∀ x, ReachableInGraph g x → none ∉ succsOf g.env x) :
    (g.roots = [] → g.size = Except.ok 0) ∧
    ∃ l : List NodeId, l.Nodup ∧ (∀ x, x ∈ l ↔ ReachableInGraph g x) ∧
      g.size = Except.ok l.length := by
  constructor
  · intro hr
    simp [Graph.size, hr, bfsAndCount]
  · have hmempend : ∀ y, some y ∈ g.roots.filter (fun r => r.isSome) ↔ some y ∈ g.roots := by
      intro y
      simp [List.mem_filter]
    have hnone : (none : Succ) ∉ g.roots.filter (fun r => r.isSome) := by
      simp [List.mem_filter]
    have hsafe2 : ∀ y, some y ∈ g.roots.filter (fun r => r.isSome) →
        ∀ x, ReachFrom g.env y x → none ∉ succsOf g.env x := by
      intro y hy x hrx
      exact hsafe x ⟨y, (hmempend y).1 hy, hrx⟩
    obtain ⟨c, v, hok⟩ := bfsAndCount_total g.env [] _ hnone hsafe2
    have hcl : ∀ x ∈ v, none ∉ succsOf g.env x ∧
        ∀ y, some y ∈ succsOf g.env x → y ∈ v := by
      intro x hx
      rcases (bfsAndCount_complete g.env [] _ c v hok).2 x hx with h | h
      · simp at h
      · exact h
    refine ⟨v, bfsAndCount_nodup g.env [] _ c v hok List.nodup_nil, ?_, ?_⟩
    · intro x
      constructor
      · intro hx
        rcases bfsAndCount_sound g.env [] _ c v hok x hx with h | ⟨r, hr, hrx⟩
        · simp at h
        · exact ⟨r, (hmempend r).1 hr, hrx⟩
      · rintro ⟨r, hr, hrx⟩
        have hrv : r ∈ v :=
          (bfsAndCount_complete g.env [] _ c v hok).1 r ((hmempend r).2 hr)
        exact visited_closed_under_reach g.env v hcl r x hrx hrv
    · have hlen := bfsAndCount_length g.env [] _ c v hok
      simp only [List.length_nil, Nat.add_zero] at hlen
      rw [Graph.size, hok, hlen]

/-- Witness for claim C1 on the one-node graph with a self-loop (a
directed cycle): no reachable node has a sentinel successor, and size()
returns 1, the number of distinct reachable nodes. -/
theorem graph_size_counts_reachable_witness :
    (∀ x, ReachableInGraph ⟨"g", [some "a"], [("a", [some "a"])]⟩ x →
      none ∉ succsOf [("a", [some "a"])] x) ∧
    ((Graph.mk "g" [some "a"] [("a", [some "a"])]).roots = [] →
      Graph.size ⟨"g", [some "a"], [("a", [some "a"])]⟩ = Except.ok 0) ∧
    ∃ l : List NodeId, l.Nodup ∧
      (∀ x, x ∈ l ↔ ReachableInGraph ⟨"g", [some "a"], [("a", [some "a"])]⟩ x) ∧
      Graph.size ⟨"g", [some "a"], [("a", [some "a"])]⟩ = Except.ok l.length := by
  have hsafe : ∀ x, ReachableInGraph ⟨"g", [some "a"], [("a", [some "a"])]⟩ x →
      none ∉ succsOf [("a", [some "a"])] x := by
    intro x _ hbad
    unfold succsOf at hbad
    rcases hf : List.find? (fun e => e.1 == x) [("a", [some "a"])] with _ | e
    · rw [hf] at hbad
      simp at hbad
    · rw [hf] at hbad
      have he : e ∈ [("a", [some "a"])] := List.mem_of_find?_eq_some hf
      obtain rfl : e = ("a", [some "a"]) := by simpa using he
      simp at hbad
  exact ⟨hsafe, graph_size_counts_reachable ⟨"g", [some "a"], [("a", [some "a"])]⟩ hsafe⟩

/-- Claim C9: when some node reachable from the roots has the None
sentinel in its successor list, both size() and dumpDotFile() raise
AttributeError (the traversal calls getID() on the None successor)
instead of returning. -/
theorem traversal_raises_on_reachable_sentinel (g : Graph)
    (hbad : ∃ x, ReachableInGraph g x ∧ none ∈ succsOf g.env x) :
    g.size = Except.error PyErr.attributeError ∧
    g.dumpDotFile = Except.error PyErr.attributeError := by
  obtain ⟨x, ⟨r, hroot, hreach⟩, hxbad⟩ := hbad
  have hrpend : some r ∈ g.roots.filter (fun t => t.isSome) := by
    simp [List.mem_filter, hroot]
  constructor
  · cases hs : bfsAndCount g.env [] (g.roots.filter (fun t => t.isSome)) with
    | error e =>
      rw [Graph.size, hs, bfsAndCount_error_form g.env [] _ e hs]
    | ok cv =>
      exfalso
      obtain ⟨c, v⟩ := cv
      have hcomp := bfsAndCount_complete g.env [] _ c v hs
      have hcl : ∀ y ∈ v, none ∉ succsOf g.env y ∧
          ∀ z, some z ∈ succsOf g.env y → z ∈ v := by
        intro y hy
        rcases hcomp.2 y hy with h | h
        · simp at h
        · exact h
      have hrv : r ∈ v := hcomp.1 r hrpend
      have hxv : x ∈ v := visited_closed_under_reach g.env v hcl r x hreach hrv
      exact (hcl x hxv).1 hxbad
  · cases hs : bfsAndAdd g.env [] []
        ((g.roots.filter (fun t => t.isSome)).map (fun t => (none, t))) with
    | error e =>
      rw [Graph.dumpDotFile, hs, bfsAndAdd_error_form g.env [] [] _ e hs]
    | ok tv =>
      exfalso
      obtain ⟨tl, v⟩ := tv
      have hcomp := bfsAndAdd_complete g.env [] [] _ tl v hs
      have hcl : ∀ y ∈ v, none ∉ succsOf g.env y ∧
          ∀ z, some z ∈ succsOf g.env y → z ∈ v := by
        intro y hy
        rcases hcomp.2 y hy with h | h
        · simp at h
        · exact h
      have hrv : r ∈ v :=
        hcomp.1 r ⟨none, List.mem_map.mpr ⟨some r, hrpend, rfl⟩⟩
      have hxv : x ∈ v := visited_closed_under_reach g.env v hcl r x hreach hrv
      exact (hcl x hxv).1 hxbad

/-- Witness for claim C9 on a graph whose single root has a sentinel
successor entry: both traversals raise AttributeError. -/
theorem traversal_raises_on_reachable_sentinel_witness :
    Graph.size ⟨"g", [some "a"], [("a", [none])]⟩ =
      Except.error PyErr.attributeError ∧
    Graph.dumpDotFile ⟨"g", [some "a"], [("a", [none])]⟩ =
      Except.error PyErr.attributeError :=
  traversal_raises_on_reachable_sentinel ⟨"g", [some "a"], [("a", [none])]⟩
    ⟨"a", ⟨"a", by simp, ReachFrom.refl "a"⟩, by decide⟩

end Absynthe
